/-
Verification of the DigitMind console game (src/main.cpp) against its
natural-language specification.

The C++ program is shallowly embedded: `DigitCombination` (std::array<int,4>)
becomes a structure of four integers, `Score` keeps its two int counters,
the fixed four-iteration scoring loop is unrolled into four applications of
its loop body `scoreStep`, the in-place erase loop of `filterCombinations`
becomes structural recursion returning the surviving list, and the nested
generation loops become nested flatMaps over `List.range`.  Interactive
input loops are modelled as functions over the list of numbers the user
types; the pseudo-random draw of `std::uniform_int_distribution(0, n)` is
modelled as reduction of an arbitrary generator value modulo n + 1.
-/
import Mathlib

/-- Embedding of `DigitCombination` (std::array<int, 4>): four C++ ints. -/
@[ext]
structure DigitCombination where
  d0 : Int
  d1 : Int
  d2 : Int
  d3 : Int
deriving DecidableEq, Repr

/-- Indexing `c[i]` on a `DigitCombination`. -/
def DigitCombination.get (c : DigitCombination) : Fin 4 → Int
  | ⟨0, _⟩ => c.d0
  | ⟨1, _⟩ => c.d1
  | ⟨2, _⟩ => c.d2
  | ⟨3, _⟩ => c.d3

/-- Embedding of `Score`: the two int counters, compared field-wise as the
C++ `operator==` does. -/
@[ext]
structure Score where
  right_position : Int
  wrong_position : Int
deriving DecidableEq, Repr

/-- The inner `for (j ...) { if (guess[i] == code[j]) { ...; break; } }`
search of `calculateScore`: the digit occurs somewhere in the code. -/
def digitInCode (d : Int) (code : DigitCombination) : Prop :=
  ∃ j : Fin 4, d = code.get j

instance (d : Int) (code : DigitCombination) : Decidable (digitInCode d code) := by
  unfold digitInCode; infer_instance

/-- Body of the scoring loop of `calculateScore` at position `i`: a
positional match increments `right_position`; otherwise a digit found
anywhere in the code increments `wrong_position`. -/
def scoreStep (guess code : DigitCombination) (i : Fin 4) (score : Score) : Score :=
  if guess.get i = code.get i then
    { score with right_position := score.right_position + 1 }
  else if digitInCode (guess.get i) code then
    { score with wrong_position := score.wrong_position + 1 }
  else
    score

/-- Embedding of `calculateScore(guess, code)`: the four iterations of the
loop, starting from the zero-initialised `Score()`. -/
def calculateScore (guess code : DigitCombination) : Score :=
  scoreStep guess code 3 (scoreStep guess code 2 (scoreStep guess code 1
    (scoreStep guess code 0 { right_position := 0, wrong_position := 0 })))

@[simp] theorem get_zero (c : DigitCombination) : c.get 0 = c.d0 := rfl

@[simp] theorem get_one (c : DigitCombination) : c.get 1 = c.d1 := rfl

@[simp] theorem get_two (c : DigitCombination) : c.get 2 = c.d2 := rfl

@[simp] theorem get_three (c : DigitCombination) : c.get 3 = c.d3 := rfl

/-- Indicator of a positional match at position `i`. -/
def rightInd (guess code : DigitCombination) (i : Fin 4) : Int :=
  if guess.get i = code.get i then 1 else 0

/-- Indicator of a wrong-position credit at position `i` as the C++ loop
body awards it. -/
def wrongInd (guess code : DigitCombination) (i : Fin 4) : Int :=
  if guess.get i ≠ code.get i ∧ digitInCode (guess.get i) code then 1 else 0

theorem scoreStep_right (guess code : DigitCombination) (i : Fin 4) (s : Score) :
    (scoreStep guess code i s).right_position =
      s.right_position + rightInd guess code i := by
  unfold scoreStep rightInd
  split_ifs with h1 h2 <;> simp_all

theorem scoreStep_wrong (guess code : DigitCombination) (i : Fin 4) (s : Score) :
    (scoreStep guess code i s).wrong_position =
      s.wrong_position + wrongInd guess code i := by
  unfold scoreStep wrongInd
  split_ifs with h1 h2 h3 <;> simp_all

theorem calculateScore_right (guess code : DigitCombination) :
    (calculateScore guess code).right_position =
      rightInd guess code 0 + rightInd guess code 1 +
        rightInd guess code 2 + rightInd guess code 3 := by
  unfold calculateScore
  rw [scoreStep_right, scoreStep_right, scoreStep_right, scoreStep_right]
  ring

theorem calculateScore_wrong (guess code : DigitCombination) :
    (calculateScore guess code).wrong_position =
      wrongInd guess code 0 + wrongInd guess code 1 +
        wrongInd guess code 2 + wrongInd guess code 3 := by
  unfold calculateScore
  rw [scoreStep_wrong, scoreStep_wrong, scoreStep_wrong, scoreStep_wrong]
  ring

/-- Embedding of `filterCombinations`: the erase loop keeps exactly the
candidates whose score against the guess equals the observed score,
preserving their order. -/
def filterCombinations : List DigitCombination → DigitCombination → Score →
    List DigitCombination
  | [], _, _ => []
  | candidate :: rest, guess, score =>
    if calculateScore guess candidate = score then
      candidate :: filterCombinations rest guess score
    else
      filterCombinations rest guess score

/-- Definition following the spec's words for the filtering step: the
sublist, in the original order, of exactly those candidates whose score
against the guess equals the observed score. -/
def keptCandidates (l : List DigitCombination) (guess : DigitCombination)
    (score : Score) : List DigitCombination :=
  l.filter fun candidate => decide (calculateScore guess candidate = score)

/-- C2: filterCombinations leaves the list equal to the order-preserving
sublist of exactly those candidates whose score against the guess equals
the observed score. -/
theorem filterCombinations_eq_keptCandidates
    (l : List DigitCombination) (guess : DigitCombination) (score : Score) :
    filterCombinations l guess score = keptCandidates l guess score := by
  induction l with
  | nil => rfl
  | cons candidate rest ih =>
    unfold filterCombinations keptCandidates
    rw [List.filter_cons]
    unfold keptCandidates at ih
    by_cases h : calculateScore guess candidate = score
    · simp [h, ih]
    · simp [h, ih]

/-- C5: filtering never adds candidates. -/
theorem filterCombinations_length_le
    (l : List DigitCombination) (guess : DigitCombination) (score : Score) :
    (filterCombinations l guess score).length ≤ l.length := by
  induction l with
  | nil => simp [filterCombinations]
  | cons candidate rest ih =>
    unfold filterCombinations
    split
    · simpa using ih
    · exact ih.trans (by simp)

/-- C4: scoring a guess equal to the code yields four right positions and
no wrong positions. -/
theorem calculateScore_self (code : DigitCombination) :
    calculateScore code code = { right_position := 4, wrong_position := 0 } := by
  ext
  · rw [calculateScore_right]; simp [rightInd]
  · rw [calculateScore_wrong]; simp [wrongInd]

theorem rightInd_bounds (guess code : DigitCombination) (i : Fin 4) :
    0 ≤ rightInd guess code i ∧ 0 ≤ wrongInd guess code i ∧
      rightInd guess code i + wrongInd guess code i ≤ 1 := by
  unfold rightInd wrongInd
  split_ifs with h1 h2 h3
  · exact absurd h1 h2.1
  · omega
  · omega
  · omega

/-- C10: both counters are non-negative and each guess position feeds at
most one of them, so their sum is at most four. -/
theorem calculateScore_bounds (guess code : DigitCombination) :
    0 ≤ (calculateScore guess code).right_position ∧
      0 ≤ (calculateScore guess code).wrong_position ∧
      (calculateScore guess code).right_position +
        (calculateScore guess code).wrong_position ≤ 4 := by
  rw [calculateScore_right, calculateScore_wrong]
  have h0 := rightInd_bounds guess code 0
  have h1 := rightInd_bounds guess code 1
  have h2 := rightInd_bounds guess code 2
  have h3 := rightInd_bounds guess code 3
  omega

/-- C9: the right-position counter reaches four exactly when the guess
equals the code, so the win conditions trigger exactly on the secret. -/
theorem right_position_eq_four_iff (guess code : DigitCombination) :
    (calculateScore guess code).right_position = 4 ↔ guess = code := by
  constructor
  · intro h
    rw [calculateScore_right] at h
    have hb : ∀ i : Fin 4, 0 ≤ rightInd guess code i ∧ rightInd guess code i ≤ 1 :=
      fun i => by unfold rightInd; split <;> omega
    have hb0 := hb 0
    have hb1 := hb 1
    have hb2 := hb 2
    have hb3 := hb 3
    have e : ∀ i : Fin 4, rightInd guess code i = 1 → guess.get i = code.get i := by
      intro i hi
      by_contra hne
      unfold rightInd at hi
      rw [if_neg hne] at hi
      omega
    have g0 := e 0 (by omega)
    have g1 := e 1 (by omega)
    have g2 := e 2 (by omega)
    have g3 := e 3 (by omega)
    simp only [get_zero, get_one, get_two, get_three] at g0 g1 g2 g3
    ext <;> assumption
  · intro h
    subst h
    rw [calculateScore_right]
    simp [rightInd]

/-- Iterated filtering, as `computerPlayer` performs it: one
`filterCombinations` call per (guess, observed score) move, in order. -/
def runFilters (l : List DigitCombination)
    (moves : List (DigitCombination × Score)) : List DigitCombination :=
  moves.foldl (fun acc move => filterCombinations acc move.1 move.2) l

theorem mem_filterCombinations_of_score
    (secret guess : DigitCombination) (l : List DigitCombination) (score : Score)
    (hmem : secret ∈ l) (hscore : calculateScore guess secret = score) :
    secret ∈ filterCombinations l guess score := by
  induction l with
  | nil => cases hmem
  | cons candidate rest ih =>
    unfold filterCombinations
    rcases List.mem_cons.mp hmem with heq | htail
    · subst heq
      rw [if_pos hscore]
      exact List.mem_cons_self _ _
    · split
      · exact List.mem_cons_of_mem _ (ih htail)
      · exact ih htail

/-- C1: as long as every observed score is the true score of the guess
against the secret, the secret survives every filterCombinations call. -/
theorem secret_survives_runFilters
    (secret : DigitCombination) (l : List DigitCombination)
    (moves : List (DigitCombination × Score))
    (hscores : ∀ move ∈ moves, move.2 = calculateScore move.1 secret)
    (hmem : secret ∈ l) :
    secret ∈ runFilters l moves := by
  induction moves generalizing l with
  | nil => exact hmem
  | cons move rest ih =>
    unfold runFilters
    rw [List.foldl_cons]
    refine ih _ (fun m hm => hscores m (List.mem_cons_of_mem _ hm)) ?_
    exact mem_filterCombinations_of_score secret move.1 l move.2 hmem
      (hscores move (List.mem_cons_self _ _)).symm

/-- Closed instance of C1 at a concrete secret, candidate list and move
sequence. -/
theorem secret_survives_runFilters_witness :
    (⟨0, 1, 2, 3⟩ : DigitCombination) ∈ runFilters
      [⟨0, 1, 2, 3⟩, ⟨1, 0, 2, 3⟩, ⟨3, 2, 1, 0⟩]
      [(⟨1, 0, 2, 3⟩, calculateScore ⟨1, 0, 2, 3⟩ ⟨0, 1, 2, 3⟩),
       (⟨0, 1, 3, 2⟩, calculateScore ⟨0, 1, 3, 2⟩ ⟨0, 1, 2, 3⟩)] :=
  secret_survives_runFilters ⟨0, 1, 2, 3⟩ _ _ (by decide) (by decide)

/-- All four digits of a combination are pairwise distinct. -/
def distinctDigits (c : DigitCombination) : Prop :=
  c.d0 ≠ c.d1 ∧ c.d0 ≠ c.d2 ∧ c.d0 ≠ c.d3 ∧
    c.d1 ≠ c.d2 ∧ c.d1 ≠ c.d3 ∧ c.d2 ≠ c.d3

instance (c : DigitCombination) : Decidable (distinctDigits c) := by
  unfold distinctDigits; infer_instance

theorem get_inj (g : DigitCombination) (hg : distinctDigits g) (i j : Fin 4)
    (h : g.get i = g.get j) : i = j := by
  obtain ⟨iv, hi⟩ := i
  obtain ⟨jv, hj⟩ := j
  interval_cases iv <;> interval_cases jv <;>
    simp_all [DigitCombination.get, distinctDigits]

/-- Indicator of a wrong-position credit at position `i` as the spec's
words describe it: the guess digit occurs in the code at a position that
was not already counted as a positional match. -/
def refWrongInd (guess code : DigitCombination) (i : Fin 4) : Int :=
  if guess.get i ≠ code.get i ∧
      ∃ j : Fin 4, guess.get i = code.get j ∧ guess.get j ≠ code.get j then
    1
  else 0

/-- Definition following the spec's words for the scoring step: count the
positional matches first, then count remaining value matches without reuse
of already-matched positions. -/
def referenceScore (guess code : DigitCombination) : Score :=
  { right_position := rightInd guess code 0 + rightInd guess code 1 +
      rightInd guess code 2 + rightInd guess code 3,
    wrong_position := refWrongInd guess code 0 + refWrongInd guess code 1 +
      refWrongInd guess code 2 + refWrongInd guess code 3 }

theorem wrongCond_iff (guess code : DigitCombination)
    (hg : distinctDigits guess) (i : Fin 4) :
    (guess.get i ≠ code.get i ∧ digitInCode (guess.get i) code) ↔
      (guess.get i ≠ code.get i ∧
        ∃ j : Fin 4, guess.get i = code.get j ∧ guess.get j ≠ code.get j) := by
  constructor
  · rintro ⟨hne, j, hj⟩
    refine ⟨hne, j, hj, fun hmatch => ?_⟩
    have hij : i = j := get_inj guess hg i j (hj.trans hmatch.symm)
    subst hij
    exact hne hj
  · rintro ⟨hne, j, hj, _⟩
    exact ⟨hne, j, hj⟩

theorem wrongInd_eq_refWrongInd (guess code : DigitCombination)
    (hg : distinctDigits guess) (i : Fin 4) :
    wrongInd guess code i = refWrongInd guess code i := by
  unfold wrongInd refWrongInd
  exact if_congr (wrongCond_iff guess code hg i) rfl rfl

/-- C3: on combinations with pairwise distinct digits the C++ scoring
loop computes exactly the reference score described by the spec. -/
theorem calculateScore_eq_referenceScore (guess code : DigitCombination)
    (hg : distinctDigits guess) (hc : distinctDigits code) :
    calculateScore guess code = referenceScore guess code := by
  ext
  · rw [calculateScore_right]; rfl
  · rw [calculateScore_wrong]
    show _ = refWrongInd guess code 0 + refWrongInd guess code 1 +
      refWrongInd guess code 2 + refWrongInd guess code 3
    rw [wrongInd_eq_refWrongInd guess code hg 0,
      wrongInd_eq_refWrongInd guess code hg 1,
      wrongInd_eq_refWrongInd guess code hg 2,
      wrongInd_eq_refWrongInd guess code hg 3]

/-- Closed instance of C3 at a concrete distinct-digit pair. -/
theorem calculateScore_eq_referenceScore_witness :
    calculateScore ⟨0, 1, 2, 3⟩ ⟨1, 0, 2, 4⟩ = referenceScore ⟨0, 1, 2, 3⟩ ⟨1, 0, 2, 4⟩ :=
  calculateScore_eq_referenceScore ⟨0, 1, 2, 3⟩ ⟨1, 0, 2, 4⟩ (by decide) (by decide)

/-- Model of the draw `std::uniform_int_distribution(0, n)(gen)`: the
distribution guarantees a result in [0, n]; an arbitrary generator value is
reduced modulo n + 1. -/
def uniformIntDraw (n : Nat) (g : Nat) : Nat :=
  g % (n + 1)

/-- Embedding of `selectRandomCombination`: index the list with a draw from
the uniform distribution over [0, size - 1]. -/
def selectRandomCombination (combinations : List DigitCombination) (g : Nat) :
    DigitCombination :=
  combinations.getD (uniformIntDraw (combinations.length - 1) g) ⟨0, 0, 0, 0⟩

/-- C8: on a non-empty candidate list the drawn index is in bounds, the
returned combination is an element of the list, and over one period of
generator values every index is drawn exactly once (uniformly). -/
theorem selectRandomCombination_spec (l : List DigitCombination) (g : Nat)
    (hne : l ≠ []) :
    uniformIntDraw (l.length - 1) g < l.length ∧
      selectRandomCombination l g ∈ l ∧
      ∀ k < l.length,
        ((List.range l.length).filter
          (fun x => uniformIntDraw (l.length - 1) x == k)).length = 1 := by
  have hn : 0 < l.length := List.length_pos.mpr hne
  have hmod : l.length - 1 + 1 = l.length := by omega
  have hlt : uniformIntDraw (l.length - 1) g < l.length := by
    unfold uniformIntDraw
    rw [hmod]
    exact Nat.mod_lt _ hn
  refine ⟨hlt, ?_, ?_⟩
  · unfold selectRandomCombination
    rw [List.getD_eq_getElem _ _ hlt]
    exact List.getElem_mem hlt
  · intro k hk
    have hcongr : ∀ x ∈ List.range l.length,
        (uniformIntDraw (l.length - 1) x == k) = (x == k) := by
      intro x hx
      rw [List.mem_range] at hx
      unfold uniformIntDraw
      rw [hmod, Nat.mod_eq_of_lt hx]
    rw [List.filter_congr hcongr, ← List.countP_eq_length_filter]
    exact List.count_eq_one_of_mem (List.nodup_range _) (List.mem_range.mpr hk)

/-- Closed instance of C8 at a concrete two-element list and generator
value. -/
theorem selectRandomCombination_spec_witness :
    uniformIntDraw (([⟨0, 1, 2, 3⟩, ⟨1, 0, 2, 3⟩] : List DigitCombination).length - 1) 5 <
        ([⟨0, 1, 2, 3⟩, ⟨1, 0, 2, 3⟩] : List DigitCombination).length ∧
      selectRandomCombination [⟨0, 1, 2, 3⟩, ⟨1, 0, 2, 3⟩] 5 ∈
        ([⟨0, 1, 2, 3⟩, ⟨1, 0, 2, 3⟩] : List DigitCombination) ∧
      ∀ k < ([⟨0, 1, 2, 3⟩, ⟨1, 0, 2, 3⟩] : List DigitCombination).length,
        ((List.range ([⟨0, 1, 2, 3⟩, ⟨1, 0, 2, 3⟩] : List DigitCombination).length).filter
          (fun x =>
            uniformIntDraw
              (([⟨0, 1, 2, 3⟩, ⟨1, 0, 2, 3⟩] : List DigitCombination).length - 1) x ==
              k)).length = 1 :=
  selectRandomCombination_spec [⟨0, 1, 2, 3⟩, ⟨1, 0, 2, 3⟩] 5 (by decide)

/-- Model of `menu()` over the successive numbers the user types: the
do-while loop re-reads while the entered value is greater than two and
returns the first value that is not; none means the input was exhausted. -/
def menu : List Int → Option Int
  | [] => none
  | choice :: rest => if choice > 2 then menu rest else some choice

/-- Model of `getDifficultyLevel()` over the successive numbers the user
types: the while loop re-reads while the value is outside [4, 10]. -/
def getDifficultyLevel : List Int → Option Int
  | [] => none
  | level :: rest =>
    if level < 4 ∨ level > 10 then getDifficultyLevel rest else some level

/-- Model of the guess conversion in `humanPlayer`: the first four
characters of the typed token are turned into digits by subtracting the
character code of '0'; the token is not validated in any way. -/
def parseGuess (c0 c1 c2 c3 : Char) : DigitCombination :=
  ⟨(c0.toNat : Int) - ('0'.toNat : Int), (c1.toNat : Int) - ('0'.toNat : Int),
    (c2.toNat : Int) - ('0'.toNat : Int), (c3.toNat : Int) - ('0'.toNat : Int)⟩

/-- Innermost loop of `generateAllCombinations` (over the fourth digit):
push the combination when all four loop indices are pairwise different. -/
def genInner3 (i j k level : Nat) : List DigitCombination :=
  (List.range level).flatMap fun l =>
    if i ≠ j ∧ i ≠ k ∧ i ≠ l ∧ j ≠ k ∧ j ≠ l ∧ k ≠ l then
      [⟨(i : Int), (j : Int), (k : Int), (l : Int)⟩]
    else []

/-- Loop of `generateAllCombinations` over the third digit. -/
def genInner2 (i j level : Nat) : List DigitCombination :=
  (List.range level).flatMap fun k => genInner3 i j k level

/-- Loop of `generateAllCombinations` over the second digit. -/
def genInner1 (i level : Nat) : List DigitCombination :=
  (List.range level).flatMap fun j => genInner2 i j level

/-- Embedding of `generateAllCombinations(level)`: the four nested loops,
pushing each combination of pairwise different digits below `level` in
loop order. -/
def generateAllCombinations (level : Nat) : List DigitCombination :=
  (List.range level).flatMap fun i => genInner1 i level

/-- A `DigitCombination` as the spec describes a valid one: four integers,
each in [0, level - 1], all distinct. -/
def validCombination (level : Nat) (c : DigitCombination) : Prop :=
  0 ≤ c.d0 ∧ c.d0 < level ∧ 0 ≤ c.d1 ∧ c.d1 < level ∧
    0 ≤ c.d2 ∧ c.d2 < level ∧ 0 ≤ c.d3 ∧ c.d3 < level ∧ distinctDigits c

instance (level : Nat) (c : DigitCombination) :
    Decidable (validCombination level c) := by
  unfold validCombination; infer_instance

theorem mem_generateAllCombinations (level : Nat) (c : DigitCombination) :
    c ∈ generateAllCombinations level ↔ validCombination level c := by
  unfold generateAllCombinations genInner1 genInner2 genInner3
  simp only [List.mem_flatMap, List.mem_range]
  constructor
  · rintro ⟨i, hi, j, hj, k, hk, l, hl, hc⟩
    by_cases hd : i ≠ j ∧ i ≠ k ∧ i ≠ l ∧ j ≠ k ∧ j ≠ l ∧ k ≠ l
    · rw [if_pos hd] at hc
      rw [List.mem_singleton] at hc
      subst hc
      unfold validCombination distinctDigits
      simp only
      omega
    · rw [if_neg hd] at hc
      cases hc
  · intro h
    unfold validCombination distinctDigits at h
    refine ⟨c.d0.toNat, by omega, c.d1.toNat, by omega, c.d2.toNat, by omega,
      c.d3.toNat, by omega, ?_⟩
    rw [if_pos (by omega)]
    rw [List.mem_singleton]
    ext <;> simp <;> omega

/-- A `flatMap` over a duplicate-free list is duplicate-free when each
block is duplicate-free and a key function recovers the originating
element from each member. -/
theorem nodup_flatMap_key {α β : Type} (l : List α) (f : α → List β)
    (key : β → α) (hl : l.Nodup) (hf : ∀ a ∈ l, (f a).Nodup)
    (hkey : ∀ a ∈ l, ∀ b ∈ f a, key b = a) :
    (l.flatMap f).Nodup := by
  rw [List.nodup_flatMap]
  refine ⟨hf, ?_⟩
  refine List.Pairwise.imp_of_mem ?_ hl
  intro a b ha hb hab
  rw [Function.onFun_apply]
  intro x hxa hxb
  exact hab ((hkey a ha x hxa).symm.trans (hkey b hb x hxb))

theorem mem_genInner3 (i j k level : Nat) (c : DigitCombination)
    (h : c ∈ genInner3 i j k level) :
    c.d0 = i ∧ c.d1 = j ∧ c.d2 = k := by
  unfold genInner3 at h
  simp only [List.mem_flatMap, List.mem_range] at h
  obtain ⟨l, hl, hc⟩ := h
  by_cases hd : i ≠ j ∧ i ≠ k ∧ i ≠ l ∧ j ≠ k ∧ j ≠ l ∧ k ≠ l
  · rw [if_pos hd, List.mem_singleton] at hc
    subst hc
    exact ⟨rfl, rfl, rfl⟩
  · rw [if_neg hd] at hc
    cases hc

theorem mem_genInner2 (i j level : Nat) (c : DigitCombination)
    (h : c ∈ genInner2 i j level) : c.d0 = i ∧ c.d1 = j := by
  unfold genInner2 at h
  rw [List.mem_flatMap] at h
  obtain ⟨k, _, hc⟩ := h
  exact ⟨(mem_genInner3 i j k level c hc).1, (mem_genInner3 i j k level c hc).2.1⟩

theorem mem_genInner1 (i level : Nat) (c : DigitCombination)
    (h : c ∈ genInner1 i level) : c.d0 = i := by
  unfold genInner1 at h
  rw [List.mem_flatMap] at h
  obtain ⟨j, _, hc⟩ := h
  exact (mem_genInner2 i j level c hc).1

theorem nodup_genInner3 (i j k level : Nat) : (genInner3 i j k level).Nodup := by
  unfold genInner3
  refine nodup_flatMap_key _ _ (fun c => c.d3.toNat) (List.nodup_range _) ?_ ?_
  · intro l hl
    split
    · exact List.nodup_singleton _
    · exact List.nodup_nil
  · intro l hl c hc
    by_cases hd : i ≠ j ∧ i ≠ k ∧ i ≠ l ∧ j ≠ k ∧ j ≠ l ∧ k ≠ l
    · rw [if_pos hd, List.mem_singleton] at hc
      subst hc
      exact Int.toNat_natCast l
    · rw [if_neg hd] at hc
      cases hc

theorem nodup_genInner2 (i j level : Nat) : (genInner2 i j level).Nodup := by
  unfold genInner2
  refine nodup_flatMap_key _ _ (fun c => c.d2.toNat) (List.nodup_range _)
    (fun k hk => nodup_genInner3 i j k level) ?_
  intro k hk c hc
  have := (mem_genInner3 i j k level c hc).2.2
  show c.d2.toNat = k
  omega

theorem nodup_genInner1 (i level : Nat) : (genInner1 i level).Nodup := by
  unfold genInner1
  refine nodup_flatMap_key _ _ (fun c => c.d1.toNat) (List.nodup_range _)
    (fun j hj => nodup_genInner2 i j level) ?_
  intro j hj c hc
  have := (mem_genInner2 i j level c hc).2
  show c.d1.toNat = j
  omega

theorem nodup_generateAllCombinations (level : Nat) :
    (generateAllCombinations level).Nodup := by
  unfold generateAllCombinations
  refine nodup_flatMap_key _ _ (fun c => c.d0.toNat) (List.nodup_range _)
    (fun i hi => nodup_genInner1 i level) ?_
  intro i hi c hc
  have := mem_genInner1 i level c hc
  show c.d0.toNat = i
  omega

theorem sum_map_range (f : Nat → Nat) (n : Nat) :
    ((List.range n).map f).sum = ∑ x ∈ Finset.range n, f x := by
  induction n with
  | zero => simp
  | succ m ih =>
    rw [List.range_succ, List.map_append, List.sum_append, Finset.sum_range_succ, ih]
    simp

theorem length_ite_list (P : Prop) [Decidable P] (x : DigitCombination) :
    (if P then [x] else []).length = if P then 1 else 0 := by
  split <;> rfl

theorem card_filter_ne1 (n a : Nat) (ha : a < n) :
    ((Finset.range n).filter fun x => x ≠ a).card = n - 1 := by
  have hset : (Finset.range n).filter (fun x => x ≠ a) = Finset.range n \ {a} := by
    ext x
    simp
  rw [hset, Finset.card_sdiff (by simp [Finset.singleton_subset_iff, ha]),
    Finset.card_range, Finset.card_singleton]

theorem card_filter_ne2 (n a b : Nat) (ha : a < n) (hb : b < n) (hab : a ≠ b) :
    ((Finset.range n).filter fun x => x ≠ a ∧ x ≠ b).card = n - 2 := by
  have hset : (Finset.range n).filter (fun x => x ≠ a ∧ x ≠ b) =
      Finset.range n \ {a, b} := by
    ext x
    simp
  have hsub : ({a, b} : Finset Nat) ⊆ Finset.range n := by
    simp [Finset.insert_subset_iff, Finset.singleton_subset_iff, ha, hb]
  have hcard : ({a, b} : Finset Nat).card = 2 := by
    rw [Finset.card_insert_of_not_mem (by simp [hab]), Finset.card_singleton]
  rw [hset, Finset.card_sdiff hsub, Finset.card_range, hcard]

theorem card_filter_ne3 (n a b c : Nat) (ha : a < n) (hb : b < n) (hc : c < n)
    (hab : a ≠ b) (hac : a ≠ c) (hbc : b ≠ c) :
    ((Finset.range n).filter fun x => x ≠ a ∧ x ≠ b ∧ x ≠ c).card = n - 3 := by
  have hset : (Finset.range n).filter (fun x => x ≠ a ∧ x ≠ b ∧ x ≠ c) =
      Finset.range n \ {a, b, c} := by
    ext x
    simp
  have hsub : ({a, b, c} : Finset Nat) ⊆ Finset.range n := by
    simp [Finset.insert_subset_iff, Finset.singleton_subset_iff, ha, hb, hc]
  have hcard : ({a, b, c} : Finset Nat).card = 3 := by
    rw [Finset.card_insert_of_not_mem (by simp [hab, hac]),
      Finset.card_insert_of_not_mem (by simp [hbc]), Finset.card_singleton]
  rw [hset, Finset.card_sdiff hsub, Finset.card_range, hcard]

theorem length_genInner3 (i j k level : Nat) (hi : i < level) (hj : j < level)
    (hk : k < level) :
    (genInner3 i j k level).length =
      if i ≠ j ∧ i ≠ k ∧ j ≠ k then level - 3 else 0 := by
  unfold genInner3
  rw [List.length_flatMap, sum_map_range]
  simp only [Function.comp, length_ite_list]
  by_cases h3 : i ≠ j ∧ i ≠ k ∧ j ≠ k
  · rw [if_pos h3]
    have hstep : ∀ l ∈ Finset.range level,
        (if i ≠ j ∧ i ≠ k ∧ i ≠ l ∧ j ≠ k ∧ j ≠ l ∧ k ≠ l then (1 : Nat) else 0) =
          if l ≠ i ∧ l ≠ j ∧ l ≠ k then (1 : Nat) else 0 := by
      intro l hl
      refine if_congr ?_ rfl rfl
      constructor
      · rintro ⟨_, _, hil, _, hjl, hkl⟩
        exact ⟨Ne.symm hil, Ne.symm hjl, Ne.symm hkl⟩
      · rintro ⟨hli, hlj, hlk⟩
        exact ⟨h3.1, h3.2.1, Ne.symm hli, h3.2.2, Ne.symm hlj, Ne.symm hlk⟩
    rw [Finset.sum_congr rfl hstep, Finset.sum_boole, Nat.cast_id]
    exact card_filter_ne3 level i j k hi hj hk h3.1 h3.2.1 h3.2.2
  · rw [if_neg h3]
    refine Finset.sum_eq_zero fun l hl => ?_
    rw [if_neg fun hP => h3 ⟨hP.1, hP.2.1, hP.2.2.2.1⟩]

theorem length_genInner2 (i j level : Nat) (hi : i < level) (hj : j < level) :
    (genInner2 i j level).length =
      if i ≠ j then (level - 2) * (level - 3) else 0 := by
  unfold genInner2
  rw [List.length_flatMap, sum_map_range]
  simp only [Function.comp]
  have hstep : ∀ k ∈ Finset.range level,
      (genInner3 i j k level).length =
        if i ≠ j ∧ i ≠ k ∧ j ≠ k then level - 3 else 0 :=
    fun k hk => length_genInner3 i j k level hi hj (Finset.mem_range.mp hk)
  rw [Finset.sum_congr rfl hstep]
  by_cases h2 : i ≠ j
  · rw [if_pos h2]
    have hstep2 : ∀ k ∈ Finset.range level,
        (if i ≠ j ∧ i ≠ k ∧ j ≠ k then level - 3 else 0) =
          if k ≠ i ∧ k ≠ j then level - 3 else 0 := by
      intro k hk
      refine if_congr ?_ rfl rfl
      constructor
      · rintro ⟨_, hik, hjk⟩
        exact ⟨Ne.symm hik, Ne.symm hjk⟩
      · rintro ⟨hki, hkj⟩
        exact ⟨h2, Ne.symm hki, Ne.symm hkj⟩
    rw [Finset.sum_congr rfl hstep2, ← Finset.sum_filter, Finset.sum_const,
      card_filter_ne2 level i j hi hj h2, smul_eq_mul]
  · rw [if_neg h2]
    refine Finset.sum_eq_zero fun k hk => ?_
    rw [if_neg fun hP => h2 hP.1]

theorem length_genInner1 (i level : Nat) (hi : i < level) :
    (genInner1 i level).length = (level - 1) * ((level - 2) * (level - 3)) := by
  unfold genInner1
  rw [List.length_flatMap, sum_map_range]
  simp only [Function.comp]
  have hstep : ∀ j ∈ Finset.range level,
      (genInner2 i j level).length =
        if i ≠ j then (level - 2) * (level - 3) else 0 :=
    fun j hj => length_genInner2 i j level hi (Finset.mem_range.mp hj)
  rw [Finset.sum_congr rfl hstep]
  have hstep2 : ∀ j ∈ Finset.range level,
      (if i ≠ j then (level - 2) * (level - 3) else 0) =
        if j ≠ i then (level - 2) * (level - 3) else 0 :=
    fun j hj => if_congr ⟨Ne.symm, Ne.symm⟩ rfl rfl
  rw [Finset.sum_congr rfl hstep2, ← Finset.sum_filter, Finset.sum_const,
    card_filter_ne1 level i hi, smul_eq_mul]

theorem length_generateAllCombinations (level : Nat) :
    (generateAllCombinations level).length =
      level * ((level - 1) * ((level - 2) * (level - 3))) := by
  unfold generateAllCombinations
  rw [List.length_flatMap, sum_map_range]
  simp only [Function.comp]
  have hstep : ∀ i ∈ Finset.range level,
      (genInner1 i level).length = (level - 1) * ((level - 2) * (level - 3)) :=
    fun i hi => length_genInner1 i level (Finset.mem_range.mp hi)
  rw [Finset.sum_congr rfl hstep, Finset.sum_const, Finset.card_range, smul_eq_mul]

/-- C6: generateAllCombinations produces exactly the valid combinations of
the level, each exactly once; its length is the falling product, which for
the playable levels 4 to 10 is at most 5040. -/
theorem generateAllCombinations_spec (level : Nat) :
    (∀ c, c ∈ generateAllCombinations level ↔ validCombination level c) ∧
      (generateAllCombinations level).Nodup ∧
      (generateAllCombinations level).length =
        level * (level - 1) * (level - 2) * (level - 3) ∧
      (4 ≤ level → level ≤ 10 →
        (generateAllCombinations level).length ≤ 5040) := by
  have hlen : (generateAllCombinations level).length =
      level * (level - 1) * (level - 2) * (level - 3) := by
    rw [length_generateAllCombinations]
    ring
  refine ⟨mem_generateAllCombinations level,
    nodup_generateAllCombinations level, hlen, fun h4 h10 => ?_⟩
  rw [hlen]
  interval_cases level <;> norm_num

/-- Closed instance of C6 at level 4, with the two range hypotheses of the
boundedness clause discharged. -/
theorem generateAllCombinations_spec_witness :
    (generateAllCombinations 4).length = 24 ∧
      (generateAllCombinations 4).length ≤ 5040 := by
  have h := generateAllCombinations_spec 4
  exact ⟨by rw [h.2.2.1], h.2.2.2 (by norm_num) (by norm_num)⟩

/-- C7 fails on the code: the menu loop condition only rejects values
greater than two, so entering -1 makes menu return -1, which is none of
the options 0, 1, 2 (contradicting the function's own documentation), and
humanPlayer converts the token 9999 into the combination (9, 9, 9, 9) with
no validation, although it is not a valid combination at level 4. -/
theorem menu_returns_invalid_choice :
    menu [-1] = some (-1) ∧
      ¬((-1 : Int) = 0 ∨ (-1 : Int) = 1 ∨ (-1 : Int) = 2) ∧
      parseGuess '9' '9' '9' '9' = ⟨9, 9, 9, 9⟩ ∧
      ¬validCombination 4 ⟨9, 9, 9, 9⟩ := by
  refine ⟨by decide, by decide, ?_, by decide⟩
  unfold parseGuess
  ext <;> decide
